import Mathlib

/-!
Verification of the Kanzi compression core against its natural-language
specification: the transform factory (ByteFunctionFactory), the ANS range
encoder (ANSRangeEncoder / ANSEncSymbol) and the Exp-Golomb decoder
(ExpGolombDecoder).

Modelling conventions.
Java/C++ strings are modelled as `List Char`.  Machine integers are modelled
as `Nat`, with explicit reductions modulo powers of two exactly where the
source can overflow.  Code that throws (IllegalArgumentException) is modelled
with `Except (List Char)`, the error value being the exception message.
Bit-stream reads are modelled as consuming a `List Bool`; bit-stream writes
are modelled as a list of emitted write events.
-/

namespace Kanzi

/-! ### ByteFunctionFactory (transform factory) -/

/-- String.toUpperCase on the character-list model of strings. -/
def toUpperL (s : List Char) : List Char := s.map Char.toUpper

/-- ByteFunctionFactory.getTypeToken: map one token, case-insensitively, to its
4-bit transform id.  An unknown token throws IllegalArgumentException whose
message carries the uppercased token (the source uppercases `name` in place
before the switch). -/
def getTypeToken (name : List Char) : Except (List Char) Nat :=
  let n := toUpperL name
  if n = ("BWT").data then .ok 1
  else if n = ("BWTS").data then .ok 2
  else if n = ("SNAPPY").data then .ok 4
  else if n = ("LZ4").data then .ok 3
  else if n = ("MTFT").data then .ok 7
  else if n = ("ZRLT").data then .ok 6
  else if n = ("RLT").data then .ok 5
  else if n = ("RANK").data then .ok 8
  else if n = ("X86").data then .ok 9
  else if n = ("TEXT").data then .ok 10
  else if n = ("NONE").data then .ok 0
  else .error (("Unknown transform type: ").data ++ n)

/-- Split a character list at every occurrence of the plus sign, keeping empty
fields.  Helper for the model of Java String.split. -/
def javaSplitAll : List Char → List (List Char)
  | [] => [[]]
  | c :: cs =>
    match javaSplitAll cs with
    | [] => [[]]
    | t :: ts => if c = '+' then [] :: t :: ts else (c :: t) :: ts

/-- Java name.split on the plus sign: split at every separator, then discard
trailing empty fields (the Java contract for split with limit 0).  getType
only splits strings that contain at least one separator, for which this model
agrees with Java. -/
def javaSplit (s : List Char) : List (List Char) :=
  ((javaSplitAll s).reverse.dropWhile (fun t => t.isEmpty)).reverse

/-- The token-packing loop of ByteFunctionFactory.getType: non-NONE ids are
shifted in starting at bit 28, NONE tokens are skipped; an unknown token
propagates the exception. -/
def getTypeGo : List (List Char) → Nat → Nat → Except (List Char) Nat
  | [], res, _ => .ok res
  | tk :: rest, res, shift =>
    match getTypeToken tk with
    | .error e => .error e
    | .ok typeTk =>
      if typeTk ≠ 0 then getTypeGo rest (res ||| (typeTk <<< shift)) (shift - 4)
      else getTypeGo rest res shift

/-- ByteFunctionFactory.getType: a name without a separator is a single token
shifted to bits 28..31; otherwise the name is split, at most 8 tokens are
allowed, and non-NONE tokens are packed from bit 28 downward. -/
def getType (name : List Char) : Except (List Char) Nat :=
  if '+' ∉ name then
    match getTypeToken name with
    | .error e => .error e
    | .ok t => .ok (t <<< 28)
  else
    let tokens := javaSplit name
    if tokens.length = 0 then .error (("Unknown transform type: ").data ++ name)
    else if tokens.length > 8 then .error (("Only 8 transforms allowed: ").data ++ name)
    else getTypeGo tokens 0 28

/-- ByteFunctionFactory.getNameToken: map a transform id (only its low nibble
is inspected) to its token.  Reserved ids 11..15 throw; the thrown message
carries the decimal rendering of the full argument. -/
def getNameToken (functionType : Nat) : Except (List Char) (List Char) :=
  match functionType &&& 15 with
  | 3 => .ok (("LZ4").data)
  | 1 => .ok (("BWT").data)
  | 2 => .ok (("BWTS").data)
  | 4 => .ok (("SNAPPY").data)
  | 7 => .ok (("MTFT").data)
  | 6 => .ok (("ZRLT").data)
  | 5 => .ok (("RLT").data)
  | 8 => .ok (("RANK").data)
  | 9 => .ok (("X86").data)
  | 10 => .ok (("TEXT").data)
  | 0 => .ok (("NONE").data)
  | _ => .error (("Unknown transform type: ").data ++ (Nat.repr functionType).data)

/-- The loop of ByteFunctionFactory.getName over the eight shifted nibble
values: zero nibbles are skipped, and a separator is appended before every
token but the first. -/
def getNameGo : List Nat → List Char → Except (List Char) (List Char)
  | [], sb => .ok sb
  | t :: rest, sb =>
    if t &&& 15 = 0 then getNameGo rest sb
    else
      match getNameToken t with
      | .error e => .error e
      | .ok name => getNameGo rest (if sb.isEmpty then name else sb ++ '+' :: name)

/-- ByteFunctionFactory.getName: join the tokens of the non-zero nibbles of
the type word, most significant nibble first; an all-zero word yields the
token NONE (the source appends getNameToken(NONE_TYPE)). -/
def getName (w : Nat) : Except (List Char) (List Char) :=
  match getNameGo ((List.range 8).map (fun i => w >>> (28 - 4 * i))) [] with
  | .error e => .error e
  | .ok sb => .ok (if sb.isEmpty then ("NONE").data else sb)

/-- Nibble i of a type word, most significant nibble first:
(w >>> (28 - 4*i)) & 0x0F. -/
def nibble (w : Nat) (i : Nat) : Nat := (w >>> (28 - 4 * i)) &&& 15

/-- The eight nibbles of a type word, most significant first. -/
def nibbles (w : Nat) : List Nat := (List.range 8).map (nibble w)

/-- The first counting loop of ByteFunctionFactory.newFunction: the number of
non-zero nibbles of the type word. -/
def countNonZeroNibbles (w : Nat) : Nat :=
  (List.range 8).foldl (fun nbtr i => if nibble w i ≠ 0 then nbtr + 1 else nbtr) 0

/-- The transform instances the factory can produce.  The context dictionary
type is a parameter `C`; only TextCodec receives the context.  SBRT_RANK
stands for `new SBRT(SBRT.MODE_RANK)` (the SBRT class itself is outside the
quoted sources, so the mode constant is folded into the constructor). -/
inductive ByteTransform (C : Type) where
  | SnappyCodec
  | LZ4Codec
  | BWTBlockCodec
  | BWTS
  | MTFT
  | ZRLT
  | RLT
  | SBRT_RANK
  | TextCodec (ctx : C)
  | X86Codec
  | NullFunction
  deriving DecidableEq

/-- ByteFunctionFactory.newFunctionToken: instantiate one transform from the
low nibble of the id; reserved ids 11..15 throw, with the decimal rendering
of the full argument in the message. -/
def newFunctionToken {C : Type} (ctx : C) (functionType : Nat) :
    Except (List Char) (ByteTransform C) :=
  match functionType &&& 15 with
  | 4 => .ok .SnappyCodec
  | 3 => .ok .LZ4Codec
  | 1 => .ok .BWTBlockCodec
  | 2 => .ok .BWTS
  | 7 => .ok .MTFT
  | 6 => .ok .ZRLT
  | 5 => .ok .RLT
  | 8 => .ok .SBRT_RANK
  | 10 => .ok (.TextCodec ctx)
  | 9 => .ok .X86Codec
  | 0 => .ok .NullFunction
  | _ => .error (("Unknown transform type: ").data ++ (Nat.repr functionType).data)

/-- The instantiation loop of ByteFunctionFactory.newFunction: for slot
i = 0..nbtr-1, read nibble i; instantiate it when it is non-zero or when it is
slot 0.  The returned list is the sequence of array assignments in order.
The first numeric argument counts the slots still to process (nbtr - i), so
the loop is structurally recursive; i is the current slot index. -/
def newFunGo {C : Type} (ctx : C) (w : Nat) :
    Nat → Nat → Except (List Char) (List (ByteTransform C))
  | 0, _ => .ok []
  | n + 1, i =>
    let t := (w >>> (28 - 4 * i)) &&& 15
    if t ≠ 0 ∨ i = 0 then
      match newFunctionToken ctx t with
      | .error e => .error e
      | .ok tr =>
        match newFunGo ctx w n (i + 1) with
        | .error e => .error e
        | .ok rest => .ok (tr :: rest)
    else newFunGo ctx w n (i + 1)

/-- ByteFunctionFactory.newFunction.  The Java method allocates an array of
nbtr slots (nbtr = number of non-zero nibbles, at least 1) and fills it from
index 0; slots the loop never assigns stay null, which the model renders as
trailing `none` entries. -/
def newFunction {C : Type} (ctx : C) (w : Nat) :
    Except (List Char) (List (Option (ByteTransform C))) :=
  let nbtr0 := countNonZeroNibbles w
  let nbtr := if nbtr0 = 0 then 1 else nbtr0
  match newFunGo ctx w nbtr 0 with
  | .error e => .error e
  | .ok lst => .ok (lst.map some ++ List.replicate (nbtr - lst.length) none)

/-! Claim-side helper definitions for the factory. -/

/-- The token of a transform id, as a total function (claim-side companion of
getNameToken, used to state the theorems). -/
def tokenName : Nat → List Char
  | 1 => ("BWT").data
  | 2 => ("BWTS").data
  | 3 => ("LZ4").data
  | 4 => ("SNAPPY").data
  | 5 => ("RLT").data
  | 6 => ("ZRLT").data
  | 7 => ("MTFT").data
  | 8 => ("RANK").data
  | 9 => ("X86").data
  | 10 => ("TEXT").data
  | _ => ("NONE").data

/-- The transform instance of a transform id, as a total function (claim-side
companion of newFunctionToken, used to state the theorems). -/
def tokenTransform {C : Type} (ctx : C) : Nat → ByteTransform C
  | 1 => .BWTBlockCodec
  | 2 => .BWTS
  | 3 => .LZ4Codec
  | 4 => .SnappyCodec
  | 5 => .RLT
  | 6 => .ZRLT
  | 7 => .MTFT
  | 8 => .SBRT_RANK
  | 9 => .X86Codec
  | 10 => .TextCodec ctx
  | _ => .NullFunction

/-- Join a list of tokens with the plus separator. -/
def joinPlus : List (List Char) → List Char
  | [] => []
  | [x] => x
  | x :: y :: xs => x ++ '+' :: joinPlus (y :: xs)

/-- Pack a list of 4-bit ids from bit 28 downward, skipping zeros (the
claim-side packing used to state the round-trip property). -/
def packGo : List Nat → Nat → Nat → Nat
  | [], res, _ => res
  | n :: rest, res, shift =>
    if n ≠ 0 then packGo rest (res ||| (n <<< shift)) (shift - 4)
    else packGo rest res shift

/-- The type word with its zero nibbles deleted and the remaining nibbles
packed contiguously from bit 28 downward. -/
def packNonzero (w : Nat) : Nat :=
  packGo ((nibbles w).filter (fun n => n != 0)) 0 28

/-- The plus-separated tokens of a specification string, as getType sees them:
a string without a separator is a single token, otherwise Java split. -/
def javaTokens (name : List Char) : List (List Char) :=
  if '+' ∈ name then javaSplit name else [name]

/-- Membership of a token in the fixed set of recognized transform names,
case-insensitively. -/
def validToken (t : List Char) : Bool :=
  let n := toUpperL t
  n == ("NONE").data || n == ("BWT").data || n == ("BWTS").data ||
  n == ("SNAPPY").data || n == ("LZ4").data || n == ("MTFT").data ||
  n == ("ZRLT").data || n == ("RLT").data || n == ("RANK").data ||
  n == ("X86").data || n == ("TEXT").data

/-- Substring test: does `pat` occur contiguously inside `s`? -/
def hasSub (pat : List Char) : List Char → Bool
  | [] => pat.isEmpty
  | c :: rest => pat.isPrefixOf (c :: rest) || hasSub pat rest

/-! ### ANS range encoder -/

/-- Modelled from the spec: ANSRangeEncoder.hpp (not among the quoted sources)
defines the renormalization threshold ANS_TOP used by encodeChunk and by
ANSEncSymbol::reset.  Section 4.4 of the specification names the constant
without giving its value; 1 << 23 is the value consistent with the 32-bit
state, byte-wise renormalization and the xMax invariant of section 3. -/
def ANS_TOP : Nat := 1 <<< 23

/-- Modelled from the spec: the MAX_CHUNK_SIZE constant of ANSRangeEncoder.hpp
(not among the quoted sources); section 4.4 bounds chunkSize by it without
giving its value. -/
def MAX_CHUNK_SIZE : Nat := 1 <<< 30

/-- The per-symbol encoder table entry (ANSEncSymbol). -/
structure ANSEncSymbol where
  xMax : Nat
  cmplFreq : Nat
  invFreq : Nat
  invShift : Nat
  bias : Nat
  deriving DecidableEq

/-- The shift-search loop of ANSEncSymbol::reset with explicit fuel: the
smallest shift with freq <= 1 << shift.  reset starts the search at shift 0
with freq < 2^16, so at most 16 iterations ever run and the fuel of 64 is
never exhausted. -/
def findShiftGo (freq : Nat) : Nat → Nat → Nat
  | 0, shift => shift
  | fuel + 1, shift =>
    if 1 <<< shift < freq then findShiftGo freq fuel (shift + 1) else shift

/-- The shift-search loop of ANSEncSymbol::reset:
while freq > 1 << shift, increment shift. -/
def findShift (freq : Nat) (shift : Nat) : Nat := findShiftGo freq 64 shift

/-- ANSEncSymbol::reset(cumFreq, freq, logRange).  The frequency is clamped
below 1 << logRange, xMax and cmplFreq are derived from the clamped value and
the reciprocal (invFreq, invShift, bias) follows Alverson's integer-division
scheme, with the special case freq < 2. -/
def ANSEncSymbol.reset (cumFreq freq0 logRange : Nat) : ANSEncSymbol :=
  let freq := if 1 <<< logRange ≤ freq0 then (1 <<< logRange) - 1 else freq0
  let xMax := ((ANS_TOP >>> logRange) <<< 8) * freq
  let cmplFreq := (1 <<< logRange) - freq
  if freq < 2 then
    { xMax := xMax, cmplFreq := cmplFreq, invFreq := 0xFFFFFFFF, invShift := 32,
      bias := cumFreq + (1 <<< logRange) - 1 }
  else
    let shift := findShift freq 0
    { xMax := xMax, cmplFreq := cmplFreq,
      invFreq := (((1 <<< (shift + 31)) + freq - 1) / freq) &&& 0xFFFFFFFF,
      invShift := 32 + shift - 1,
      bias := cumFreq }

/-- The renormalization loop of encodeChunk: while st >= xMax, push the low
byte of st into the buffer and shift st right by 8.  Emitted bytes are listed
in emission order; the source stores them at a decreasing pointer, so the
buffer segment later written to the stream is their reverse.  The first
numeric argument is explicit fuel making the loop structurally recursive. -/
def renormGo (xMax : Nat) : Nat → Nat → List Nat × Nat
  | 0, st => ([], st)
  | fuel + 1, st =>
    if xMax ≤ st then
      let r := renormGo xMax fuel (st >>> 8)
      (st % 256 :: r.1, r.2)
    else ([], st)

/-- The renormalization loop with its fuel instantiated: in every use the
state is below 2^32 and xMax is at least 2^15, so at most four iterations run
and the fuel of 8 is never exhausted (the source loop would diverge only in
the unreachable case xMax = 0). -/
def renorm (xMax : Nat) (st : Nat) : List Nat × Nat := renormGo xMax 8 st

/-- The ANS state update of encodeChunk:
st <- st + bias + ((st * invFreq) >> invShift) * cmplFreq, truncated to 32
bits by the int() cast. -/
def ansStep (sym : ANSEncSymbol) (st : Nat) : Nat :=
  let q := (st * sym.invFreq) >>> sym.invShift
  (st + sym.bias + q * sym.cmplFreq) % 2 ^ 32

/-- The order-0 loop of encodeChunk, processing the chunk from its last byte
to its first (the argument is the reversed chunk): renormalize against the
symbol of the byte, then advance the state.  Returns the emitted buffer bytes
in emission order together with the final state. -/
def o0Go (symb : Nat → ANSEncSymbol) : List Nat → Nat → List Nat × Nat
  | [], st => ([], st)
  | b :: rest, st =>
    let sym := symb b
    let r := renorm sym.xMax st
    let st2 := ansStep sym r.2
    let rr := o0Go symb rest st2
    (r.1 ++ rr.1, rr.2)

/-- The order-1 loop of encodeChunk, recording only which flat symbol-table
slot each step uses: the call at loop index i (the byte at position i + 1,
with prv its value and cur the byte before it) uses slot (cur << 8) | prv,
and the final step after the loop uses slot prv, which by then holds the
first byte of the chunk.  Pairs are (position of the byte being encoded,
flat table index), in encoding order. -/
def o1Go (data : List Nat) : Nat → Nat → List (Nat × Nat)
  | 0, prv => [(0, prv)]
  | n + 1, prv =>
    let cur := data.getD n 0
    (n + 1, (cur <<< 8) ||| prv) :: o1Go data n cur

/-- The symbol-table slots used by the order-1 path of encodeChunk on a chunk,
in encoding order (the source iterates i from end-2 down to 0 with
prv = block[end-1] initially, then encodes one last symbol from slot prv). -/
def encodeChunkO1Syms (data : List Nat) : List (Nat × Nat) :=
  o1Go data (data.length - 1) (data.getD (data.length - 1) 0)

/-- The order-1 loop of encodeChunk with the full state arithmetic, mirroring
o1Go: the counter n is the loop index plus one, prv the current previous
byte; n = 0 performs the final-symbol step on slot prv. -/
def o1GoFull (symb : Nat → ANSEncSymbol) (data : List Nat) :
    Nat → Nat → Nat → List Nat × Nat
  | 0, prv, st =>
    let sym := symb prv
    let r := renorm sym.xMax st
    (r.1, ansStep sym r.2)
  | n + 1, prv, st =>
    let cur := data.getD n 0
    let sym := symb ((cur <<< 8) ||| prv)
    let r := renorm sym.xMax st
    let st2 := ansStep sym r.2
    let rr := o1GoFull symb data n cur st2
    (r.1 ++ rr.1, rr.2)

/-- One write to the output bit stream. -/
inductive BitEvent where
  | varInt (v : Nat)
  | bits (v : Nat) (n : Nat)
  | byteArr (bs : List Nat)
  deriving DecidableEq

/-- Is the event a byte-array write? -/
def BitEvent.isByteArr : BitEvent → Bool
  | .byteArr _ => true
  | _ => false

/-- ANSRangeEncoder::encodeChunk as the sequence of bit-stream writes it
performs: run the order-0 or order-1 state loop over the chunk, then write
the count of buffered bytes as a varint (EntropyUtils::writeVarInt of
p0 - p), the final state on 32 bits, and the buffered bytes (the buffer
segment p+1..p0, which is the reverse of the emission order). -/
def encodeChunkEvents (order : Nat) (symb : Nat → ANSEncSymbol) (data : List Nat) :
    List BitEvent :=
  let p := if order = 0 then o0Go symb data.reverse ANS_TOP
           else o1GoFull symb data (data.length - 1) (data.getD (data.length - 1) 0) ANS_TOP
  [BitEvent.varInt p.1.length, BitEvent.bits p.2 32, BitEvent.byteArr p.1.reverse]

/-- The mutable fields of ANSRangeEncoder that encode can touch. -/
structure EncState where
  order : Nat
  logRange : Nat
  chunkSize : Nat
  bufferSize : Nat
  buffer : List Nat
  symbols : Nat → ANSEncSymbol
  freqs : Nat → Nat
  alphabet : Nat → Nat

/-- The log-range lowering loop of ANSRangeEncoder::encode:
while lr > 8 and 1 << lr > sizeChunk, decrement lr. -/
def lowerLogRange (lr sizeChunk : Nat) : Nat :=
  if 8 < lr ∧ sizeChunk < 1 <<< lr then lowerLogRange (lr - 1) sizeChunk else lr
termination_by lr
decreasing_by omega

/-- The chunk loop of ANSRangeEncoder::encode.  rebuild abstracts
rebuildStatistics (Global::computeHistogram and the EntropyUtils
normalization plus header emission are outside the quoted sources): it
receives the state, the chunk and the lowered log range and returns the
updated state together with the header writes.  The fuel argument bounds the
iteration count; it is initialized to end - blkptr, which dominates the
number of iterations because every reachable iteration consumes at least one
byte.  The scratch-buffer bytes written by encodeChunk surface in the
byteArr event of encodeChunkEvents. -/
def encodeLoop (rebuild : EncState → List Nat → Nat → EncState × List BitEvent) :
    Nat → EncState → List Nat → Nat → Nat → Nat → List BitEvent →
    EncState × List BitEvent
  | 0, e, _, _, _, _, evs => (e, evs)
  | fuel + 1, e, block, startChunk, endIdx, sz, evs =>
    if startChunk < endIdx then
      let sizeChunk := if startChunk + sz < endIdx then sz else endIdx - startChunk
      let lr := lowerLogRange e.logRange sizeChunk
      let chunk := (block.drop startChunk).take sizeChunk
      let r := rebuild e chunk lr
      let cevs := encodeChunkEvents r.1.order r.1.symbols chunk
      encodeLoop rebuild fuel r.1 block (startChunk + sizeChunk) endIdx sz
        (evs ++ r.2 ++ cevs)
    else (e, evs)

/-- ANSRangeEncoder::encode: return 0 at once when len = 0; otherwise choose
the chunk size, grow the scratch buffer to sz + sz/8 when it is smaller, and
encode the block chunk by chunk.  Returns the updated encoder state, the
return value and the bit-stream writes. -/
def ANSRangeEncoder.encode (rebuild : EncState → List Nat → Nat → EncState × List BitEvent)
    (e : EncState) (block : List Nat) (blkptr len : Nat) :
    EncState × Nat × List BitEvent :=
  if len = 0 then (e, 0, [])
  else
    let endIdx := blkptr + len
    let sz0 := if e.chunkSize = 0 then len else e.chunkSize
    let sz := if sz0 > MAX_CHUNK_SIZE then MAX_CHUNK_SIZE else sz0
    let e1 := if e.bufferSize < sz + (sz >>> 3) then
                { e with bufferSize := sz + (sz >>> 3),
                         buffer := List.replicate (sz + (sz >>> 3)) 0 }
              else e
    let r := encodeLoop rebuild (endIdx - blkptr) e1 block blkptr endIdx sz []
    (r.1, len, r.2)

/-! ### Exp-Golomb decoder -/

/-- InputBitStream::readBit on the list-of-bits model. -/
def readBit : List Bool → Option (Bool × List Bool)
  | [] => none
  | b :: r => some (b, r)

/-- The accumulator loop of readBits: bits enter MSB-first into the low end. -/
def readBitsGo : Nat → Nat → List Bool → Option (Nat × List Bool)
  | 0, acc, bs => some (acc, bs)
  | _ + 1, _, [] => none
  | n + 1, acc, b :: r => readBitsGo n (2 * acc + (if b then 1 else 0)) r

/-- InputBitStream::readBits(n) on the list-of-bits model. -/
def readBits (n : Nat) (bs : List Bool) : Option (Nat × List Bool) :=
  readBitsGo n 0 bs

/-- The zero-counting loop of ExpGolombDecoder::decodeByte: consume bits up to
and including the first 1, returning the number of zeros consumed. -/
def countZeros : List Bool → Option (Nat × List Bool)
  | [] => none
  | b :: r =>
    if b then some (0, r)
    else
      match countZeros r with
      | none => none
      | some (n, r2) => some (n + 1, r2)

/-- The value of a bit list read MSB-first. -/
def bitsVal (bs : List Bool) : Nat :=
  bs.foldl (fun acc b => 2 * acc + (if b then 1 else 0)) 0

/-- ExpGolombDecoder::decodeByte.  A leading 1 decodes to 0.  Otherwise log2
is one plus the number of further zeros before the terminating 1 (the source
initializes log2 = 1 and increments it per zero).  In signed mode the source
reads log2+1 bits into a byte (hence the reduction modulo 256), splits off
the trailing sign bit, rebuilds the magnitude and negates it when the sign
bit is set: (res - sgn) XOR -sgn in two's complement is res for sgn = 0 and
256 - res modulo 256 for sgn = 1.  In unsigned mode it reads log2 bits and
returns the byte (1 << log2) - 1 + low. -/
def decodeByte (signedMode : Bool) (bs : List Bool) : Option (Nat × List Bool) :=
  match readBit bs with
  | none => none
  | some (b, r) =>
    if b then some (0, r)
    else
      match countZeros r with
      | none => none
      | some (z, r1) =>
        let log2 := 1 + z
        if signedMode then
          match readBits (log2 + 1) r1 with
          | none => none
          | some (raw, r2) =>
            let res0 := raw % 256
            let sgn := res0 &&& 1
            let res1 := ((res0 >>> 1) + (1 <<< log2) - 1) % 256
            some (if sgn = 1 then (256 - res1) % 256 else res1, r2)
        else
          match readBits log2 r1 with
          | none => none
          | some (low, r2) => some (((1 <<< log2) - 1 + low) % 256, r2)

/-- Decoding n bytes one by one (the remainder loop of ExpGolombDecoder::
decode, and the claim-side naive loop). -/
def decodeNaive (s : Bool) : Nat → List Bool → Option (List Nat × List Bool)
  | 0, bs => some ([], bs)
  | n + 1, bs =>
    match decodeByte s bs with
    | none => none
    | some (v, bs1) =>
      match decodeNaive s n bs1 with
      | none => none
      | some (vs, bs2) => some (v :: vs, bs2)

/-- The unrolled loop of ExpGolombDecoder::decode: g groups of eight
consecutive decodeByte calls. -/
def decode8Groups (s : Bool) : Nat → List Bool → Option (List Nat × List Bool)
  | 0, bs => some ([], bs)
  | g + 1, bs =>
    match decodeByte s bs with
    | none => none
    | some (v1, b1) =>
    match decodeByte s b1 with
    | none => none
    | some (v2, b2) =>
    match decodeByte s b2 with
    | none => none
    | some (v3, b3) =>
    match decodeByte s b3 with
    | none => none
    | some (v4, b4) =>
    match decodeByte s b4 with
    | none => none
    | some (v5, b5) =>
    match decodeByte s b5 with
    | none => none
    | some (v6, b6) =>
    match decodeByte s b6 with
    | none => none
    | some (v7, b7) =>
    match decodeByte s b7 with
    | none => none
    | some (v8, b8) =>
      match decode8Groups s g b8 with
      | none => none
      | some (vs, bf) => some (v1 :: v2 :: v3 :: v4 :: v5 :: v6 :: v7 :: v8 :: vs, bf)

/-- ExpGolombDecoder::decode(block, blkptr, len): len8 = len & uint(-8)
groups the first 8 * (len8 / 8) bytes into the unrolled loop, the remaining
len - len8 bytes go through the plain loop.  The decoded bytes land at
block[blkptr..blkptr+len); the model returns them as a list together with the
remaining bit stream. -/
def ExpGolombDecoder.decode (s : Bool) (len : Nat) (bs : List Bool) :
    Option (List Nat × List Bool) :=
  let len8 := len &&& (2 ^ 32 - 8)
  match decode8Groups s (len8 / 8) bs with
  | none => none
  | some (xs, bs1) =>
    match decodeNaive s (len - len8) bs1 with
    | none => none
    | some (ys, bs2) => some (xs ++ ys, bs2)

/-! ### Theorems: ANS range encoder -/

/-- C10: ANSRangeEncoder::encode with len = 0 returns 0 immediately: the
encoder state (buffer, buffer size, frequency, symbol and alphabet tables) is
returned unchanged and no bit-stream write happens, for every abstraction of
the statistics rebuild, every block and every block pointer. -/
theorem ansEncoder_encode_len_zero
    (rebuild : EncState → List Nat → Nat → EncState × List BitEvent)
    (e : EncState) (block : List Nat) (blkptr : Nat) :
    ANSRangeEncoder.encode rebuild e block blkptr 0 = (e, 0, []) := rfl

/-- C6: ANSEncSymbol::reset clamps freq to 2^logRange - 1 whenever
freq >= 2^logRange, for any cumFreq, freq >= 1 and logRange in [8,16]; the
resulting xMax is then ((ANS_TOP >> lr) << 8) * (2^lr - 1), which is positive
and below 2^31.  Moreover, for the inputs (cumFreq = 0, freq = 1,
logRange = 12) the reciprocal is invFreq = 0xFFFFFFFF with invShift = 32 and
bias = (1 << 12) - 1. -/
theorem ansEncSymbol_reset_clamp_and_vectors (cumFreq freq lr : Nat)
    (h1 : 1 ≤ freq) (h2 : 8 ≤ lr) (h3 : lr ≤ 16) (h4 : 2 ^ lr ≤ freq) :
    ((ANSEncSymbol.reset cumFreq freq lr).xMax
        = ((ANS_TOP >>> lr) <<< 8) * (2 ^ lr - 1)
      ∧ 0 < (ANSEncSymbol.reset cumFreq freq lr).xMax
      ∧ (ANSEncSymbol.reset cumFreq freq lr).xMax < 2 ^ 31)
    ∧ (ANSEncSymbol.reset 0 1 12).invFreq = 0xFFFFFFFF
    ∧ (ANSEncSymbol.reset 0 1 12).invShift = 32
    ∧ (ANSEncSymbol.reset 0 1 12).bias = (1 <<< 12) - 1 := by
  have hclamp : 1 <<< lr ≤ freq := by rw [Nat.one_shiftLeft]; exact h4
  have hfield : (ANSEncSymbol.reset cumFreq freq lr).xMax
      = ((ANS_TOP >>> lr) <<< 8) * (2 ^ lr - 1) := by
    simp only [ANSEncSymbol.reset, if_pos hclamp]
    split <;> simp [Nat.one_shiftLeft]
  refine ⟨⟨hfield, ?_, ?_⟩, rfl, rfl, rfl⟩
  · rw [hfield]; interval_cases lr <;> decide
  · rw [hfield]; interval_cases lr <;> decide

/-- Witness for C6 at cumFreq = 0, freq = 256, logRange = 8. -/
theorem ansEncSymbol_reset_clamp_and_vectors_witness :
    ((ANSEncSymbol.reset 0 256 8).xMax = ((ANS_TOP >>> 8) <<< 8) * (2 ^ 8 - 1)
      ∧ 0 < (ANSEncSymbol.reset 0 256 8).xMax
      ∧ (ANSEncSymbol.reset 0 256 8).xMax < 2 ^ 31)
    ∧ (ANSEncSymbol.reset 0 1 12).invFreq = 0xFFFFFFFF
    ∧ (ANSEncSymbol.reset 0 1 12).invShift = 32
    ∧ (ANSEncSymbol.reset 0 1 12).bias = (1 <<< 12) - 1 :=
  ansEncSymbol_reset_clamp_and_vectors 0 256 8 (by decide) (by decide) (by decide) (by decide)

/-- The order-1 slot-recording loop, related to the chunk contents: starting
at counter n with prv = data[n], iteration j encodes the byte at position
j + 1 from the slot keyed by its predecessor, and after the loop the byte at
position 0 is encoded from the slot equal to its own value. -/
theorem o1Go_spec (data : List Nat) : ∀ n : Nat,
    o1Go data n (data.getD n 0) =
      ((List.range n).reverse.map
        (fun j => (j + 1, ((data.getD j 0) <<< 8) ||| (data.getD (j + 1) 0))))
      ++ [(0, data.getD 0 0)] := by
  intro n
  induction n with
  | zero => simp [o1Go]
  | succ n ih =>
    rw [List.range_succ]
    simp only [List.reverse_append, List.reverse_cons, List.reverse_nil, List.nil_append,
      List.map_cons, List.cons_append]
    rw [← ih]
    rfl

/-- C3 (corrected): in the order-1 path of ANSRangeEncoder::encodeChunk,
bytes are processed from the last to the first; every byte except the first
is encoded from the order-1 symbol table keyed by its preceding byte, at flat
index (prev << 8) | cur, and the first byte of the chunk (encoded last) is
encoded from the table slot whose flat index equals the byte itself, i.e. the
context-0 entry of the order-1 table — not the last byte, and not a separate
order-0 table. -/
theorem encodeChunkO1_slots (data : List Nat) (h : data ≠ []) :
    encodeChunkO1Syms data =
      ((List.range (data.length - 1)).reverse.map
        (fun j => (j + 1, ((data.getD j 0) <<< 8) ||| (data.getD (j + 1) 0))))
      ++ [(0, data.getD 0 0)] := by
  unfold encodeChunkO1Syms
  exact o1Go_spec data (data.length - 1)

/-- Witness for C3 on the two-byte chunk [5, 7]. -/
theorem encodeChunkO1_slots_witness :
    encodeChunkO1Syms [5, 7] =
      ((List.range ([5, 7].length - 1)).reverse.map
        (fun j => (j + 1, (([5, 7].getD j 0) <<< 8) ||| ([5, 7].getD (j + 1) 0))))
      ++ [(0, [5, 7].getD 0 0)] :=
  encodeChunkO1_slots [5, 7] (by decide)

/-- Counterexample to C3 as stated: on the chunk [5, 7] the last byte (the
value 7, at position 1) is encoded from flat table index (5 << 8) | 7 = 1287,
the order-1 entry keyed by its preceding byte, and no step encodes position 1
from index 7 (the byte itself); the step that uses a table indexed by the
byte itself is the one for position 0, the first byte. -/
theorem encodeChunkO1_anchor_counterexample :
    encodeChunkO1Syms [5, 7] = [(1, 1287), (0, 5)]
    ∧ (∀ p ∈ encodeChunkO1Syms [5, 7], p.1 = 1 → p.2 ≠ 7) := by
  exact ⟨rfl, by decide⟩

/-- C4 (corrected): after rANS-encoding a chunk (either order), the encoder
emits exactly three writes, in this order: the count of buffered bytes as a
varint, then the final 32-bit ANS state, then the buffered encoded bytes. -/
theorem encodeChunk_emits_count_state_bytes (order : Nat)
    (symb : Nat → ANSEncSymbol) (data : List Nat) :
    ∃ bytes st, encodeChunkEvents order symb data =
      [BitEvent.varInt bytes.length, BitEvent.bits st 32, BitEvent.byteArr bytes] := by
  refine ⟨(if order = 0 then o0Go symb data.reverse ANS_TOP
           else o1GoFull symb data (data.length - 1)
                  (data.getD (data.length - 1) 0) ANS_TOP).1.reverse, ?_, ?_⟩
  · exact (if order = 0 then o0Go symb data.reverse ANS_TOP
           else o1GoFull symb data (data.length - 1)
                  (data.getD (data.length - 1) 0) ANS_TOP).2
  · simp [encodeChunkEvents]

/-- Counterexample to C4 as stated: with the symbol table built by
reset(0, 1, 12) and the one-byte chunk [65], the chunk produces one buffered
byte, and the emitted sequence is varint count, then the 32-bit state, then
the buffered bytes — the write at index 1 is the state, not the buffered
byte array, contradicting the claimed order count, bytes, state. -/
theorem encodeChunk_emission_counterexample :
    encodeChunkEvents 0 (fun _ => ANSEncSymbol.reset 0 1 12) [65]
      = [BitEvent.varInt 1, BitEvent.bits 134217728 32, BitEvent.byteArr [0]]
    ∧ BitEvent.isByteArr
        ((encodeChunkEvents 0 (fun _ => ANSEncSymbol.reset 0 1 12) [65]).getD 1
          (BitEvent.varInt 0)) = false := by
  exact ⟨rfl, rfl⟩

/-! ### Theorems: Exp-Golomb decoder -/

/-- readBitsGo over a block of known length reads exactly that block. -/
theorem readBitsGo_append (vb : List Bool) : ∀ (acc : Nat) (rest : List Bool),
    readBitsGo vb.length acc (vb ++ rest)
      = some (vb.foldl (fun a b => 2 * a + (if b then 1 else 0)) acc, rest) := by
  induction vb with
  | nil => intro acc rest; rfl
  | cons b vb ih => intro acc rest; simpa [readBitsGo] using ih (2 * acc + (if b then 1 else 0)) rest

/-- readBits n consumes the first n bits and yields their MSB-first value. -/
theorem readBits_exact (n : Nat) (vb : List Bool) (rest : List Bool)
    (hv : vb.length = n) : readBits n (vb ++ rest) = some (bitsVal vb, rest) := by
  subst hv
  exact readBitsGo_append vb 0 rest

/-- countZeros consumes a run of zeros together with its terminating one. -/
theorem countZeros_replicate (m : Nat) : ∀ rest : List Bool,
    countZeros (List.replicate m false ++ true :: rest) = some (m, rest) := by
  induction m with
  | zero => intro rest; rfl
  | succ m ih => intro rest; simp [List.replicate_succ, countZeros, ih rest]

/-- C7: ExpGolombDecoder::decodeByte follows the documented grammar.  A
leading 1 bit decodes to 0.  Otherwise, with k zero bits before the
terminating 1 (so log2 = k) and vb the next k value bits of value
low = bitsVal vb: in unsigned mode the result is the byte
(1 << k) - 1 + low; in signed mode one extra trailing sign bit sb is read,
the magnitude is rebuilt from the high bits of the byte-truncated raw read,
and a set sign bit negates it modulo 256 — the (res - sgn) XOR -sgn
two's-complement negation of the source. -/
theorem expGolomb_decodeByte_grammar (s : Bool) (k : Nat) (vb : List Bool) (sb : Bool)
    (rest : List Bool) (hk : 1 ≤ k) (hv : vb.length = k) :
    decodeByte s (true :: rest) = some (0, rest)
    ∧ decodeByte false (List.replicate k false ++ true :: (vb ++ rest))
        = some (((1 <<< k) - 1 + bitsVal vb) % 256, rest)
    ∧ decodeByte true (List.replicate k false ++ true :: (vb ++ sb :: rest))
        = some ((if sb then (256 - ((bitsVal vb % 128 + (1 <<< k) - 1) % 256)) % 256
                 else (bitsVal vb % 128 + (1 <<< k) - 1) % 256), rest) := by
  obtain ⟨m, rfl⟩ : ∃ m, k = m + 1 := ⟨k - 1, by omega⟩
  refine ⟨rfl, ?_, ?_⟩
  · show decodeByte false (false :: (List.replicate m false ++ true :: (vb ++ rest))) = _
    rw [decodeByte]
    simp only [readBit, countZeros_replicate m (vb ++ rest)]
    rw [readBits_exact (1 + m) vb rest (by omega)]
    simp [Nat.add_comm 1 m]
  · show decodeByte true (false :: (List.replicate m false ++ true :: (vb ++ sb :: rest))) = _
    rw [decodeByte]
    simp only [readBit, countZeros_replicate m (vb ++ sb :: rest)]
    have hsplit : vb ++ sb :: rest = (vb ++ [sb]) ++ rest := by simp
    rw [hsplit, readBits_exact (1 + m + 1) (vb ++ [sb]) rest (by simp [hv]; omega)]
    have hraw : bitsVal (vb ++ [sb]) = 2 * bitsVal vb + (if sb then 1 else 0) := by
      simp [bitsVal, List.foldl_append]
    rw [hraw]
    set v := bitsVal vb with hvv
    have hs01 : (if sb then (1 : Nat) else 0) ≤ 1 := by split <;> omega
    set sbit := (if sb then (1 : Nat) else 0) with hsb
    have hand : ((2 * v + sbit) % 256) &&& 1 = sbit := by
      rw [Nat.and_one_is_mod]; omega
    have hshift : ((2 * v + sbit) % 256) >>> 1 = v % 128 := by
      rw [Nat.shiftRight_eq_div_pow]
      simp only [pow_one]
      omega
    simp only [hand, hshift, Nat.add_comm 1 m]
    cases sb with
    | true => simp [hsb]
    | false => simp [hsb]

/-- Witness for C7 at k = 2, value bits [true, false], sign bit true. -/
theorem expGolomb_decodeByte_grammar_witness :
    decodeByte false (true :: [false]) = some (0, [false])
    ∧ decodeByte false (List.replicate 2 false ++ true :: ([true, false] ++ [false]))
        = some (((1 <<< 2) - 1 + bitsVal [true, false]) % 256, [false])
    ∧ decodeByte true (List.replicate 2 false ++ true :: ([true, false] ++ true :: [false]))
        = some ((if true then (256 - ((bitsVal [true, false] % 128 + (1 <<< 2) - 1) % 256))
                 else (bitsVal [true, false] % 128 + (1 <<< 2) - 1) % 256), [false]) :=
  expGolomb_decodeByte_grammar false 2 [true, false] true [false] (by decide) (by decide)

/-- Splitting a naive decoding run: decoding a + b bytes is decoding a bytes
and then b bytes, concatenating the outputs. -/
theorem decodeNaive_add (s : Bool) (a b : Nat) : ∀ bs : List Bool,
    decodeNaive s (a + b) bs =
      match decodeNaive s a bs with
      | none => none
      | some (xs, bs1) =>
        match decodeNaive s b bs1 with
        | none => none
        | some (ys, bs2) => some (xs ++ ys, bs2) := by
  induction a with
  | zero =>
    intro bs
    simp only [Nat.zero_add, decodeNaive]
    cases h : decodeNaive s b bs with
    | none => rfl
    | some r => rfl
  | succ a ih =>
    intro bs
    rw [show a + 1 + b = (a + b) + 1 from by omega]
    rw [decodeNaive]
    conv_rhs => rw [decodeNaive]
    cases h1 : decodeByte s bs with
    | none => rfl
    | some p =>
      obtain ⟨v, bs1⟩ := p
      simp only [ih bs1]
      cases h2 : decodeNaive s a bs1 with
      | none => rfl
      | some q =>
        obtain ⟨xs, bs2⟩ := q
        cases h3 : decodeNaive s b bs2 with
        | none => simp [h3]
        | some r => simp [h3]

/-- The unrolled groups of eight are exactly eight naive steps each. -/
theorem decode8Groups_eq_naive (s : Bool) : ∀ (g : Nat) (bs : List Bool),
    decode8Groups s g bs = decodeNaive s (8 * g) bs := by
  intro g
  induction g with
  | zero => intro bs; rfl
  | succ g ih =>
    intro bs
    have e : 8 * (g + 1)
        = ((((((((8 * g) + 1) + 1) + 1) + 1) + 1) + 1) + 1) + 1 := by ring
    rw [e]
    simp only [decodeNaive, decode8Groups, ih]
    cases h1 : decodeByte s bs with
    | none => rfl
    | some p1 =>
    obtain ⟨v1, b1⟩ := p1
    dsimp only
    cases h2 : decodeByte s b1 with
    | none => rfl
    | some p2 =>
    obtain ⟨v2, b2⟩ := p2
    dsimp only
    cases h3 : decodeByte s b2 with
    | none => rfl
    | some p3 =>
    obtain ⟨v3, b3⟩ := p3
    dsimp only
    cases h4 : decodeByte s b3 with
    | none => rfl
    | some p4 =>
    obtain ⟨v4, b4⟩ := p4
    dsimp only
    cases h5 : decodeByte s b4 with
    | none => rfl
    | some p5 =>
    obtain ⟨v5, b5⟩ := p5
    dsimp only
    cases h6 : decodeByte s b5 with
    | none => rfl
    | some p6 =>
    obtain ⟨v6, b6⟩ := p6
    dsimp only
    cases h7 : decodeByte s b6 with
    | none => rfl
    | some p7 =>
    obtain ⟨v7, b7⟩ := p7
    dsimp only
    cases h8 : decodeByte s b7 with
    | none => rfl
    | some p8 =>
    obtain ⟨v8, b8⟩ := p8
    dsimp only
    cases h9 : decodeNaive s (8 * g) b8 with
    | none => rfl
    | some q => rfl

/-- len & uint(-8) is len rounded down to a multiple of eight, for any len
below 2^32. -/
theorem and_mask_eight (len : Nat) (h : len < 2 ^ 32) :
    len &&& (2 ^ 32 - 8) = 8 * (len / 8) := by
  have hmaskT : ∀ i, i < 32 → 3 ≤ i → Nat.testBit (2 ^ 32 - 8) i = true := by decide
  have hmaskF : ∀ i, i < 3 → Nat.testBit (2 ^ 32 - 8) i = false := by decide
  have h8 : 8 * (len / 8) = (len >>> 3) <<< 3 := by
    rw [Nat.shiftRight_eq_div_pow, Nat.shiftLeft_eq]
    norm_num [Nat.mul_comm]
  apply Nat.eq_of_testBit_eq
  intro i
  rw [Nat.testBit_and, h8, Nat.testBit_shiftLeft, Nat.testBit_shiftRight]
  rcases Nat.lt_or_ge i 32 with hi | hi
  · rcases Nat.lt_or_ge i 3 with h3 | h3
    · rw [hmaskF i h3]
      simp [Nat.not_le.mpr h3]
    · rw [hmaskT i hi h3, show 3 + (i - 3) = i from by omega]
      simp [h3]
  · have hpow : (2 : Nat) ^ 32 ≤ 2 ^ i := Nat.pow_le_pow_right (by norm_num) hi
    have hl : Nat.testBit len i = false :=
      Nat.testBit_lt_two_pow (by omega)
    have hm : Nat.testBit len (3 + (i - 3)) = false :=
      Nat.testBit_lt_two_pow
        (by
          have : (2 : Nat) ^ 32 ≤ 2 ^ (3 + (i - 3)) :=
            Nat.pow_le_pow_right (by norm_num) (by omega)
          omega)
    simp [hl, hm]

/-- A successful naive decode of n bytes yields exactly n bytes. -/
theorem decodeNaive_length (s : Bool) : ∀ (n : Nat) (bs : List Bool) (r : List Nat × List Bool),
    decodeNaive s n bs = some r → r.1.length = n := by
  intro n
  induction n with
  | zero =>
    intro bs r h
    simp only [decodeNaive, Option.some.injEq] at h
    simp [← h]
  | succ n ih =>
    intro bs r h
    rw [decodeNaive] at h
    cases h1 : decodeByte s bs with
    | none => rw [h1] at h; exact absurd h (by simp)
    | some p =>
      obtain ⟨v, bs1⟩ := p
      rw [h1] at h
      dsimp only at h
      cases h2 : decodeNaive s n bs1 with
      | none => rw [h2] at h; exact absurd h (by simp)
      | some q =>
        rw [h2] at h
        obtain ⟨xs, bs2⟩ := q
        simp only [Option.some.injEq] at h
        have := ih bs1 (xs, bs2) h2
        simp [← h, this]

/-- C9: the 8-way unrolled loop of ExpGolombDecoder::decode produces exactly
the same result as calling decodeByte len times in sequence, for every mode,
length below 2^32 and bit stream; and every successful decode yields exactly
len bytes (the source then returns len). -/
theorem expGolomb_decode_unrolled (s : Bool) (len : Nat) (bs : List Bool)
    (h : len < 2 ^ 32) :
    ExpGolombDecoder.decode s len bs = decodeNaive s len bs
    ∧ ((decodeNaive s len bs).all fun r => r.1.length == len) = true := by
  constructor
  · simp only [ExpGolombDecoder.decode, and_mask_eight len h]
    rw [Nat.mul_div_cancel_left (len / 8) (by norm_num), decode8Groups_eq_naive]
    have e : len = 8 * (len / 8) + (len - 8 * (len / 8)) := by
      have := Nat.div_mul_le_self len 8
      omega
    conv_rhs => rw [e]
    rw [decodeNaive_add]
  · cases hr : decodeNaive s len bs with
    | none => rfl
    | some r => simp [Option.all, decodeNaive_length s len bs r hr]

/-- Witness for C9 on a three-byte stream of three coded zeros. -/
theorem expGolomb_decode_unrolled_witness :
    ExpGolombDecoder.decode false 3 [true, true, true]
        = decodeNaive false 3 [true, true, true]
    ∧ ((decodeNaive false 3 [true, true, true]).all fun r => r.1.length == 3) = true :=
  expGolomb_decode_unrolled false 3 [true, true, true] (by norm_num)

/-! ### Theorems: transform factory instantiation (newFunction) -/

/-- Every nibble is at most 15. -/
theorem nibble_le_15 (w i : Nat) : nibble w i ≤ 15 := Nat.and_le_right

/-- newFunctionToken succeeds on ids 0..10 and produces the matching
transform instance. -/
theorem newFunctionToken_ok {C : Type} (ctx : C) (t : Nat) (h : t ≤ 10) :
    newFunctionToken ctx t = .ok (tokenTransform ctx t) := by
  interval_cases t <;> rfl

/-- newFunctionToken fails on the reserved ids 11..15. -/
theorem newFunctionToken_reserved {C : Type} (ctx : C) (t : Nat)
    (h1 : 11 ≤ t) (h2 : t ≤ 15) :
    newFunctionToken ctx t
      = .error (("Unknown transform type: ").data ++ (Nat.repr t).data) := by
  interval_cases t <;> rfl

/-- The instantiation loop over a run of non-zero valid nibbles produces one
transform instance per slot, in slot order. -/
theorem newFunGo_run {C : Type} (ctx : C) (w : Nat) : ∀ (n i : Nat),
    (∀ j, i ≤ j → j < i + n → 1 ≤ nibble w j ∧ nibble w j ≤ 10) →
    newFunGo ctx w n i
      = .ok ((List.range' i n).map (fun j => tokenTransform ctx (nibble w j))) := by
  intro n
  induction n with
  | zero => intro i _; rfl
  | succ n ih =>
    intro i hnib
    have hi := hnib i (by omega) (by omega)
    have ht : (w >>> (28 - 4 * i)) &&& 15 = nibble w i := rfl
    rw [newFunGo, ht]
    rw [if_pos (Or.inl (by omega))]
    rw [newFunctionToken_ok ctx _ hi.2]
    rw [ih (i + 1) (fun j hj1 hj2 => hnib j (by omega) (by omega))]
    rw [List.range'_succ]
    rfl

/-- The counting loop of newFunction counts k when the non-zero nibbles are
exactly the first k slots. -/
theorem countNonZero_eq (w k : Nat) (hk : k ≤ 8)
    (h1 : ∀ j, j < k → nibble w j ≠ 0)
    (h2 : ∀ j, k ≤ j → j < 8 → nibble w j = 0) :
    countNonZeroNibbles w = k := by
  have hc : ∀ j, j < 8 → ((nibble w j ≠ 0) ↔ j < k) := by
    intro j hj
    constructor
    · intro hne
      by_contra hjk
      exact hne (h2 j (by omega) hj)
    · intro hjk
      exact h1 j hjk
  unfold countNonZeroNibbles
  rw [show List.range 8 = [0, 1, 2, 3, 4, 5, 6, 7] from rfl]
  simp only [List.foldl]
  simp only [hc 0 (by norm_num), hc 1 (by norm_num), hc 2 (by norm_num), hc 3 (by norm_num),
    hc 4 (by norm_num), hc 5 (by norm_num), hc 6 (by norm_num), hc 7 (by norm_num)]
  interval_cases k <;> simp

/-- The non-zero nibbles of a canonical word are its first k nibbles. -/
theorem filter_nibbles_eq (w k : Nat) (hk : k ≤ 8)
    (h1 : ∀ j, j < k → nibble w j ≠ 0)
    (h2 : ∀ j, k ≤ j → j < 8 → nibble w j = 0) :
    (nibbles w).filter (fun n => n != 0) = (List.range' 0 k).map (nibble w) := by
  have hb : ∀ j, j < 8 → ((nibble w j != 0) = decide (j < k)) := by
    intro j hj
    by_cases hjk : j < k
    · simp [hjk, bne_iff_ne, h1 j hjk]
    · rw [decide_eq_false hjk]
      simp [h2 j (by omega) hj]
  unfold nibbles
  rw [show List.range 8 = [0, 1, 2, 3, 4, 5, 6, 7] from rfl]
  simp only [List.map_cons, List.map_nil, List.filter_cons, List.filter_nil]
  rw [hb 0 (by norm_num), hb 1 (by norm_num), hb 2 (by norm_num), hb 3 (by norm_num),
    hb 4 (by norm_num), hb 5 (by norm_num), hb 6 (by norm_num), hb 7 (by norm_num)]
  interval_cases k <;> simp [List.range']

/-- C1 (corrected): for every context and every canonical type word — a word
whose non-zero nibbles occupy the first k slots and whose nibbles are all
assigned ids (0..10) — newFunction returns exactly one transform instance per
non-zero nibble, in nibble order from most significant to least significant;
if every nibble is 0 it returns exactly one null transform.  (Words with a
zero nibble before a non-zero one do not obey this: see the counterexample.) -/
theorem newFunction_canonical {C : Type} (ctx : C) (w k : Nat) (hk : k ≤ 8)
    (h1 : ∀ j, j < k → nibble w j ≠ 0)
    (h2 : ∀ j, k ≤ j → j < 8 → nibble w j = 0)
    (h3 : ∀ j, j < 8 → nibble w j ≤ 10) :
    newFunction ctx w =
      .ok (if k = 0 then [some (ByteTransform.NullFunction)]
           else ((nibbles w).filter (fun n => n != 0)).map
                  (fun n => some (tokenTransform ctx n))) := by
  simp only [newFunction, countNonZero_eq w k hk h1 h2]
  rcases Nat.eq_zero_or_pos k with hk0 | hkpos
  · subst hk0
    simp only [reduceIte]
    have h0 : nibble w 0 = 0 := h2 0 (by omega) (by omega)
    have ht : (w >>> (28 - 4 * 0)) &&& 15 = nibble w 0 := rfl
    rw [newFunGo.eq_def]
    simp only [ht, h0]
    rfl
  · have hkne : k ≠ 0 := by omega
    simp only [if_neg hkne]
    rw [newFunGo_run ctx w k 0
      (fun j hj1 hj2 => ⟨Nat.one_le_iff_ne_zero.mpr (h1 j (by omega)), h3 j (by omega)⟩)]
    rw [filter_nibbles_eq w k hk h1 h2]
    simp [List.map_map, Function.comp]

/-- Witness for C1 at the canonical word 0x17600000 (BWT+MTFT+ZRLT), k = 3. -/
theorem newFunction_canonical_witness :
    newFunction () 0x17600000 =
      .ok (if 3 = 0 then [some (ByteTransform.NullFunction)]
           else ((nibbles 0x17600000).filter (fun n => n != 0)).map
                  (fun n => some (tokenTransform () n))) :=
  newFunction_canonical () 0x17600000 3 (by norm_num)
    (by decide) (by decide) (by decide)

/-- Counterexample to C1 as stated: the word 0x05000000 has exactly one
non-zero nibble, the value 5 (RLT) in slot 1 behind a leading zero nibble, so
the claim demands a sequence holding exactly one RLT instance; the code
instantiates slot 0 instead (a null transform) and never reaches slot 1. -/
theorem newFunction_leading_zero_counterexample :
    nibble 0x05000000 1 = 5
    ∧ newFunction () 0x05000000 = .ok [some ByteTransform.NullFunction]
    ∧ ([some (ByteTransform.NullFunction : ByteTransform Unit)]
        ≠ [some ByteTransform.RLT]) := by
  exact ⟨rfl, rfl, by decide⟩

/-- The instantiation loop fails when some slot in its range holds a reserved
nibble (11..15) and no slot in its range is zero. -/
theorem newFunGo_reserved {C : Type} (ctx : C) (w : Nat) : ∀ (n i : Nat),
    (∃ j, i ≤ j ∧ j < i + n ∧ 11 ≤ nibble w j) →
    (∀ j, i ≤ j → j < i + n → nibble w j ≠ 0) →
    ∃ msg, newFunGo ctx w n i = .error msg := by
  intro n
  induction n with
  | zero =>
    intro i hex _
    obtain ⟨j, hj1, hj2, _⟩ := hex
    omega
  | succ n ih =>
    intro i hex hnz
    have ht : (w >>> (28 - 4 * i)) &&& 15 = nibble w i := rfl
    have hij : nibble w i ≠ 0 := hnz i (by omega) (by omega)
    by_cases hres : 11 ≤ nibble w i
    · refine ⟨("Unknown transform type: ").data ++ (Nat.repr (nibble w i)).data, ?_⟩
      rw [newFunGo, ht, if_pos (Or.inl hij),
        newFunctionToken_reserved ctx (nibble w i) hres (nibble_le_15 w i)]
    · obtain ⟨j, hj1, hj2, hj3⟩ := hex
      have hji : j ≠ i := by
        intro hcontra
        rw [hcontra] at hj3
        omega
      obtain ⟨msg, hmsg⟩ := ih (i + 1)
        ⟨j, by omega, by omega, hj3⟩
        (fun j hja hjb => hnz j (by omega) (by omega))
      refine ⟨msg, ?_⟩
      rw [newFunGo, ht, if_pos (Or.inl hij),
        newFunctionToken_ok ctx (nibble w i) (by omega), hmsg]

/-- C5 (corrected): for every canonical type word (non-zero nibbles packed
from the most significant nibble) containing at least one nibble in 11..15,
newFunction raises an invalid-argument error and produces no sequence.
(A reserved nibble hidden behind a leading zero nibble is not detected: see
the counterexample.) -/
theorem newFunction_reserved_rejected {C : Type} (ctx : C) (w k : Nat) (hk : k ≤ 8)
    (h1 : ∀ j, j < k → nibble w j ≠ 0)
    (h2 : ∀ j, k ≤ j → j < 8 → nibble w j = 0)
    (h3 : ∃ j, j < 8 ∧ 11 ≤ nibble w j) :
    ∃ msg, newFunction ctx w = .error msg := by
  obtain ⟨j0, hj8, hj11⟩ := h3
  have hj0k : j0 < k := by
    by_contra hc
    have := h2 j0 (by omega) hj8
    omega
  simp only [newFunction, countNonZero_eq w k hk h1 h2]
  rw [show (if k = 0 then 1 else k) = k from by
    have : k ≠ 0 := by omega
    simp [this]]
  obtain ⟨msg, hmsg⟩ := newFunGo_reserved ctx w k 0
    ⟨j0, by omega, by omega, hj11⟩
    (fun j hja hjb => h1 j (by omega))
  rw [hmsg]
  exact ⟨msg, rfl⟩

/-- Witness for C5 at the canonical word 0xB0000000 (reserved id 11 in the
first slot), k = 1. -/
theorem newFunction_reserved_rejected_witness :
    ∃ msg, newFunction () 0xB0000000 = .error msg :=
  newFunction_reserved_rejected () 0xB0000000 1 (by norm_num)
    (by decide) (by decide) ⟨0, by decide, by decide⟩

/-- Counterexample to C5 as stated: the word 0x0B000000 carries the reserved
id 11 in slot 1, behind a leading zero nibble; instantiation does not raise
an error — it returns a sequence holding a single null transform, because the
loop stops after nbtr = 1 slots and never inspects the reserved nibble. -/
theorem newFunction_reserved_accepted_counterexample :
    nibble 0x0B000000 1 = 11
    ∧ newFunction () 0x0B000000 = .ok [some ByteTransform.NullFunction] := by
  exact ⟨rfl, rfl⟩

/-! ### Theorems: transform name parsing and formatting -/

/-- The token of an assigned non-null id is a nonempty uppercase word free of
the separator, and getTypeToken maps it back to the id. -/
theorem tokenName_facts (m : Nat) (h1 : 1 ≤ m) (h2 : m ≤ 10) :
    tokenName m ≠ [] ∧ '+' ∉ tokenName m ∧ getTypeToken (tokenName m) = .ok m := by
  interval_cases m <;> exact ⟨by decide, by decide, rfl⟩

/-- getNameToken succeeds on every id whose low nibble is assigned (0..10)
and yields its token. -/
theorem getNameToken_ok (t : Nat) (h : t &&& 15 ≤ 10) :
    getNameToken t = .ok (tokenName (t &&& 15)) := by
  unfold getNameToken
  generalize hm : t &&& 15 = m at h ⊢
  interval_cases m <;> rfl

/-- joinPlus of a list starting with a nonempty token is nonempty. -/
theorem joinPlus_ne_nil (x : List Char) (xs : List (List Char)) (hx : x ≠ []) :
    joinPlus (x :: xs) ≠ [] := by
  cases xs with
  | nil => simpa [joinPlus] using hx
  | cons y ys => simp [joinPlus, hx]

/-- Appending one token to a join: the separator is inserted exactly when the
accumulator is nonempty. -/
theorem joinPlus_snoc (acc : List (List Char)) (nm : List Char) :
    joinPlus (acc ++ [nm]) = if acc.isEmpty then nm else joinPlus acc ++ '+' :: nm := by
  induction acc with
  | nil => rfl
  | cons a as ih =>
    cases as with
    | nil => rfl
    | cons b bs =>
      have e1 : joinPlus ((a :: b :: bs) ++ [nm]) = a ++ '+' :: joinPlus ((b :: bs) ++ [nm]) := rfl
      rw [e1, ih]
      simp [joinPlus, List.append_assoc]

/-- The loop of getName over ids with assigned nibbles appends the token of
every non-zero nibble to the join accumulated so far. -/
theorem getNameGo_spec : ∀ (ts : List Nat), (∀ t ∈ ts, t &&& 15 ≤ 10) →
    ∀ acc : List (List Char), (∀ s ∈ acc, s ≠ []) →
    getNameGo ts (joinPlus acc) =
      .ok (joinPlus (acc ++ (ts.filter (fun t => t &&& 15 != 0)).map
            (fun t => tokenName (t &&& 15)))) := by
  intro ts
  induction ts with
  | nil => intro _ acc _; simp [getNameGo]
  | cons t rest ih =>
    intro h acc hacc
    have ht : t &&& 15 ≤ 10 := h t (by simp)
    have hrest : ∀ u ∈ rest, u &&& 15 ≤ 10 := fun u hu => h u (by simp [hu])
    by_cases h0 : t &&& 15 = 0
    · rw [getNameGo, if_pos h0]
      rw [ih hrest acc hacc]
      simp [List.filter_cons, h0]
    · have hm1 : 1 ≤ t &&& 15 := by omega
      obtain ⟨hne, _, _⟩ := tokenName_facts (t &&& 15) hm1 ht
      rw [getNameGo, if_neg h0, getNameToken_ok t ht]
      dsimp only
      have hsb : (if (joinPlus acc).isEmpty then tokenName (t &&& 15)
                  else joinPlus acc ++ '+' :: tokenName (t &&& 15))
          = joinPlus (acc ++ [tokenName (t &&& 15)]) := by
        rw [joinPlus_snoc]
        cases acc with
        | nil => rfl
        | cons a as =>
          have : joinPlus (a :: as) ≠ [] := joinPlus_ne_nil a as (hacc a (by simp))
          simp [List.isEmpty_iff, this]
      rw [hsb]
      rw [ih hrest (acc ++ [tokenName (t &&& 15)])
        (by
          intro s hs
          rcases List.mem_append.mp hs with hs1 | hs2
          · exact hacc s hs1
          · simpa using List.mem_singleton.mp hs2 ▸ hne)]
      rw [List.filter_cons, if_pos (by simpa using h0)]
      simp

/-- getName of a word with assigned nibbles: the plus-join of the tokens of
its non-zero nibbles, or NONE when every nibble is zero. -/
theorem getName_spec (w : Nat) (h : ∀ n ∈ nibbles w, n ≤ 10) :
    getName w = .ok (if ((nibbles w).filter (fun n => n != 0)) = []
                     then ("NONE").data
                     else joinPlus (((nibbles w).filter (fun n => n != 0)).map tokenName)) := by
  have hts : ((List.range 8).map (fun i => w >>> (28 - 4 * i))).map (fun t => t &&& 15)
      = nibbles w := by
    simp [nibbles, List.map_map, Function.comp, nibble]
  have hmem : ∀ t ∈ (List.range 8).map (fun i => w >>> (28 - 4 * i)), t &&& 15 ≤ 10 := by
    intro t htm
    apply h
    rw [← hts]
    exact List.mem_map_of_mem _ htm
  unfold getName
  have hgo := getNameGo_spec ((List.range 8).map (fun i => w >>> (28 - 4 * i))) hmem [] (by simp)
  rw [show joinPlus [] = [] from rfl] at hgo
  have hfm : ([] : List (List Char)) ++ (((List.range 8).map (fun i => w >>> (28 - 4 * i))).filter
        (fun t => t &&& 15 != 0)).map (fun t => tokenName (t &&& 15))
      = ((nibbles w).filter (fun n => n != 0)).map tokenName := by
    rw [List.nil_append, ← hts]
    simp [List.filter_map, List.map_map, Function.comp_def]
  rw [hfm] at hgo
  rw [hgo]
  dsimp only
  cases hnz : (nibbles w).filter (fun n => n != 0) with
  | nil => rfl
  | cons n ns =>
    have hn10 : n ≤ 10 := h n (List.mem_of_mem_filter (hnz ▸ List.mem_cons_self n ns))
    have hn0 : n ≠ 0 := by
      have := List.of_mem_filter (hnz ▸ List.mem_cons_self n ns)
      simpa [bne_iff_ne] using this
    obtain ⟨hne, _, _⟩ := tokenName_facts n (by omega) hn10
    have hjoin : joinPlus (tokenName n :: List.map tokenName ns) ≠ [] :=
      joinPlus_ne_nil _ _ hne
    simp [List.isEmpty_iff, hjoin]

/-- javaSplitAll never yields an empty field list. -/
theorem javaSplitAll_ne_nil (s : List Char) : javaSplitAll s ≠ [] := by
  cases s with
  | nil => simp [javaSplitAll]
  | cons c cs =>
    rw [javaSplitAll]
    cases h : javaSplitAll cs with
    | nil => simp
    | cons t ts =>
      dsimp only
      by_cases hc : c = '+' <;> simp [hc]

/-- javaSplitAll leaves a separator-free string whole. -/
theorem javaSplitAll_noSep (x : List Char) (hx : '+' ∉ x) : javaSplitAll x = [x] := by
  induction x with
  | nil => rfl
  | cons c cs ih =>
    have hc : ¬c = '+' := by
      intro hc
      exact hx (by simp [hc])
    have hcs : '+' ∉ cs := fun hmem => hx (by simp [hmem])
    rw [javaSplitAll, ih hcs]
    simp [hc]

/-- javaSplitAll splits off a separator-free head field at the first
separator. -/
theorem javaSplitAll_sep (x : List Char) (hx : '+' ∉ x) : ∀ r : List Char,
    javaSplitAll (x ++ '+' :: r) = x :: javaSplitAll r := by
  induction x with
  | nil =>
    intro r
    rw [List.nil_append, javaSplitAll]
    cases h : javaSplitAll r with
    | nil => exact absurd h (javaSplitAll_ne_nil r)
    | cons t ts => simp
  | cons c cs ih =>
    intro r
    have hc : ¬c = '+' := by
      intro hc
      exact hx (by simp [hc])
    have hcs : '+' ∉ cs := fun hmem => hx (by simp [hmem])
    rw [List.cons_append, javaSplitAll, ih hcs r]
    simp [hc]

/-- javaSplit undoes joinPlus on a nonempty list of nonempty separator-free
tokens. -/
theorem javaSplit_joinPlus : ∀ l : List (List Char), l ≠ [] →
    (∀ x ∈ l, x ≠ [] ∧ '+' ∉ x) → javaSplit (joinPlus l) = l := by
  have hall : ∀ l : List (List Char), l ≠ [] → (∀ x ∈ l, x ≠ [] ∧ '+' ∉ x) →
      javaSplitAll (joinPlus l) = l := by
    intro l
    induction l with
    | nil => intro h _; exact absurd rfl h
    | cons x xs ih =>
      intro _ hx
      cases xs with
      | nil => exact javaSplitAll_noSep x (hx x (by simp)).2
      | cons y ys =>
        rw [show joinPlus (x :: y :: ys) = x ++ '+' :: joinPlus (y :: ys) from rfl]
        rw [javaSplitAll_sep x (hx x (by simp)).2]
        rw [ih (by simp) (fun u hu => hx u (by simp [hu]))]
  intro l hl hx
  unfold javaSplit
  rw [hall l hl hx]
  cases hr : l.reverse with
  | nil => exact absurd (by simpa using congrArg List.reverse hr) hl
  | cons a t =>
    have ha : a ≠ [] := (hx a (by
      have : a ∈ l.reverse := by rw [hr]; simp
      simpa using this)).1
    rw [List.dropWhile_cons, if_neg (by simp [List.isEmpty_iff, ha])]
    rw [← hr]
    simp

/-- The packing loop of getType on a list of valid tokens packs the ids. -/
theorem getTypeGo_tokens : ∀ (l : List Nat), (∀ n ∈ l, 1 ≤ n ∧ n ≤ 10) →
    ∀ res shift : Nat, getTypeGo (l.map tokenName) res shift = .ok (packGo l res shift) := by
  intro l
  induction l with
  | nil => intro _ res shift; rfl
  | cons n rest ih =>
    intro h res shift
    obtain ⟨hn1, hn10⟩ := h n (by simp)
    obtain ⟨_, _, htok⟩ := tokenName_facts n hn1 hn10
    rw [List.map_cons, getTypeGo, htok]
    dsimp only
    have hn0 : n ≠ 0 := by omega
    rw [if_pos hn0, packGo, if_pos hn0]
    exact ih (fun u hu => h u (by simp [hu])) _ _

/-- C2: the round trip between getName and getType.  For every 32-bit type
word whose nibbles are all assigned ids (0..10), formatting the word and
parsing the result yields the word with its zero nibbles deleted and the
remaining nibbles packed contiguously from bit 28 downward.  In particular
NONE tokens in a name never contribute to the packed word (conjunct two:
dropping a NONE token anywhere in the token list leaves the packing loop's
result unchanged) and an all-NONE specification packs to 0 (conjunct
three). -/
theorem getName_getType_roundtrip (w : Nat) (hw : w < 2 ^ 32)
    (h : ∀ n ∈ nibbles w, n ≤ 10) :
    Except.bind (getName w) getType = .ok (packNonzero w)
    ∧ (∀ (toks1 toks2 : List (List Char)) (res shift : Nat),
        getTypeGo (toks1 ++ ("NONE").data :: toks2) res shift
          = getTypeGo (toks1 ++ toks2) res shift)
    ∧ getType (("NONE+NONE").data) = .ok 0 := by
  refine ⟨?_, ?_, rfl⟩
  · rw [getName_spec w h]
    have hmem : ∀ n ∈ (nibbles w).filter (fun n => n != 0), 1 ≤ n ∧ n ≤ 10 := by
      intro n hn
      have h10 := h n (List.mem_of_mem_filter hn)
      have h0 : n ≠ 0 := by simpa [bne_iff_ne] using List.of_mem_filter hn
      omega
    have hpack : packNonzero w = packGo ((nibbles w).filter (fun n => n != 0)) 0 28 := rfl
    cases hnz : (nibbles w).filter (fun n => n != 0) with
    | nil =>
      rw [hpack, hnz]
      rfl
    | cons n ns =>
      rw [hpack, hnz]
      rw [hnz] at hmem
      obtain ⟨hn1, hn10⟩ := hmem n (by simp)
      obtain ⟨hne, hplus, htok⟩ := tokenName_facts n hn1 hn10
      have hred : Except.bind (Except.ok (if n :: ns = [] then ("NONE").data
            else joinPlus (List.map tokenName (n :: ns)))) getType
          = getType (joinPlus (List.map tokenName (n :: ns))) := by
        simp [Except.bind]
      rw [hred]
      cases ns with
      | nil =>
        rw [show joinPlus (List.map tokenName [n]) = tokenName n from rfl]
        rw [getType, if_pos hplus, htok]
        dsimp only
        rw [packGo, if_pos (show n ≠ 0 from by omega), packGo]
        simp [Nat.zero_or]
      | cons m ms =>
        obtain ⟨hm1, hm10⟩ := hmem m (by simp)
        obtain ⟨hmne, hmplus, _⟩ := tokenName_facts m hm1 hm10
        have hsepmem : '+' ∈ joinPlus ((n :: m :: ms).map tokenName) := by
          rw [show joinPlus ((n :: m :: ms).map tokenName)
              = tokenName n ++ '+' :: joinPlus ((m :: ms).map tokenName) from rfl]
          simp
        have hsplit : javaSplit (joinPlus ((n :: m :: ms).map tokenName))
            = (n :: m :: ms).map tokenName := by
          apply javaSplit_joinPlus
          · simp
          · intro x hxm
            obtain ⟨u, hu, hux⟩ := List.mem_map.mp hxm
            obtain ⟨hu1, hu10⟩ := hmem u hu
            obtain ⟨h1', h2', _⟩ := tokenName_facts u hu1 hu10
            exact hux ▸ ⟨h1', h2'⟩
        have hlen : ((n :: m :: ms).map tokenName).length ≤ 8 := by
          have h8 : ((nibbles w).filter (fun n => n != 0)).length ≤ 8 := by
            have := List.length_filter_le (fun n => n != 0) (nibbles w)
            simpa [nibbles] using this
          rw [hnz] at h8
          simpa using h8
        rw [getType, if_neg (not_not_intro hsepmem)]
        dsimp only
        rw [hsplit]
        rw [if_neg (by simp), if_neg (by omega)]
        rw [getTypeGo_tokens (n :: m :: ms) (by intro u hu; exact hmem u hu) 0 28]
  · intro toks1 toks2 res shift
    induction toks1 generalizing res shift with
    | nil =>
      rw [List.nil_append, List.nil_append, getTypeGo,
        show getTypeToken (("NONE").data) = .ok 0 from rfl]
      simp
    | cons a as ih =>
      rw [List.cons_append, List.cons_append, getTypeGo, getTypeGo]
      cases ha : getTypeToken a with
      | error e => rfl
      | ok v =>
        dsimp only
        split <;> exact ih _ _

/-- Witness for C2 at the word 0x17600000 (BWT+MTFT+ZRLT). -/
theorem getName_getType_roundtrip_witness :
    Except.bind (getName 0x17600000) getType = .ok (packNonzero 0x17600000) :=
  (getName_getType_roundtrip 0x17600000 (by norm_num) (by decide)).1

/-- An unrecognized token makes getTypeToken throw, and the thrown message
names the uppercased token. -/
theorem getTypeToken_invalid (t : List Char) (hv : validToken t = false) :
    getTypeToken t = .error (("Unknown transform type: ").data ++ toUpperL t) := by
  simp only [validToken, Bool.or_eq_false_iff, beq_eq_false_iff_ne, ne_eq] at hv
  obtain ⟨⟨⟨⟨⟨⟨⟨⟨⟨⟨h1, h2⟩, h3⟩, h4⟩, h5⟩, h6⟩, h7⟩, h8⟩, h9⟩, h10⟩, h11⟩ := hv
  simp only [getTypeToken]
  rw [if_neg h2, if_neg h3, if_neg h4, if_neg h5, if_neg h6, if_neg h7, if_neg h8,
    if_neg h9, if_neg h10, if_neg h11, if_neg h1]

/-- A recognized token makes getTypeToken succeed. -/
theorem getTypeToken_valid (t : List Char) (hv : validToken t = true) :
    ∃ v, getTypeToken t = .ok v := by
  simp only [validToken, Bool.or_eq_true, beq_iff_eq] at hv
  rcases hv with ((((((((((h | h) | h) | h) | h) | h) | h) | h) | h) | h) | h) <;>
    · simp only [getTypeToken, h]
      first
      | exact ⟨0, rfl⟩
      | exact ⟨1, rfl⟩
      | exact ⟨2, rfl⟩
      | exact ⟨3, rfl⟩
      | exact ⟨4, rfl⟩
      | exact ⟨5, rfl⟩
      | exact ⟨6, rfl⟩
      | exact ⟨7, rfl⟩
      | exact ⟨8, rfl⟩
      | exact ⟨9, rfl⟩
      | exact ⟨10, rfl⟩

/-- Every list is a prefix of itself. -/
theorem isPrefixOf_self_chars (l : List Char) : l.isPrefixOf l = true := by
  induction l with
  | nil => rfl
  | cons c cs ih => simp [List.isPrefixOf, ih]

/-- A pattern occurs in any string that ends with it. -/
theorem hasSub_append_self (pat pre : List Char) : hasSub pat (pre ++ pat) = true := by
  induction pre with
  | nil =>
    cases pat with
    | nil => rfl
    | cons c cs =>
      rw [List.nil_append, hasSub]
      simp [isPrefixOf_self_chars]
  | cons c pre ih => simp [hasSub, ih]

/-- The packing loop fails as soon as it reaches an unrecognized token, and
the error message carries that token uppercased. -/
theorem getTypeGo_invalid : ∀ (toks : List (List Char)) (res shift : Nat),
    (∃ t ∈ toks, validToken t = false) →
    ∃ msg, getTypeGo toks res shift = .error msg
      ∧ ∃ t ∈ toks, validToken t = false ∧ hasSub (toUpperL t) msg = true := by
  intro toks
  induction toks with
  | nil =>
    intro res shift hex
    obtain ⟨t, ht, _⟩ := hex
    exact absurd ht (by simp)
  | cons a rest ih =>
    intro res shift hex
    by_cases ha : validToken a = false
    · refine ⟨("Unknown transform type: ").data ++ toUpperL a, ?_, a, by simp, ha, ?_⟩
      · rw [getTypeGo, getTypeToken_invalid a ha]
      · exact hasSub_append_self (toUpperL a) (("Unknown transform type: ").data)
    · have hat : validToken a = true := by
        cases hval : validToken a
        · exact absurd hval ha
        · rfl
      obtain ⟨v, hv⟩ := getTypeToken_valid a hat
      have hex' : ∃ t ∈ rest, validToken t = false := by
        obtain ⟨t, htmem, htf⟩ := hex
        rcases List.mem_cons.mp htmem with rfl | hmem
        · exact absurd htf ha
        · exact ⟨t, hmem, htf⟩
      by_cases hv0 : v ≠ 0
      · obtain ⟨msg, hmsg, t, htm, htf, hsub⟩ := ih (res ||| (v <<< shift)) (shift - 4) hex'
        refine ⟨msg, ?_, t, by simp [htm], htf, hsub⟩
        rw [getTypeGo, hv]
        dsimp only
        rw [if_pos hv0, hmsg]
      · obtain ⟨msg, hmsg, t, htm, htf, hsub⟩ := ih res shift hex'
        refine ⟨msg, ?_, t, by simp [htm], htf, hsub⟩
        rw [getTypeGo, hv]
        dsimp only
        rw [if_neg hv0, hmsg]

/-- C8 (corrected): parsing a transform specification raises an
invalid-argument error whenever it has more than 8 plus-separated tokens or
contains a token outside the fixed recognized set (case-insensitively).  With
more than 8 tokens the message carries the full name verbatim; with an
unrecognized token the message carries that token uppercased (the source
uppercases the token before matching and before building the message, so a
lowercase offending token appears in the message only in uppercase: see the
counterexample). -/
theorem getType_rejects (name : List Char)
    (h : 8 < (javaTokens name).length ∨ ∃ t ∈ javaTokens name, validToken t = false) :
    ∃ msg, getType name = .error msg
      ∧ (8 < (javaTokens name).length → hasSub name msg = true)
      ∧ ((javaTokens name).length ≤ 8 →
          ∃ t ∈ javaTokens name, validToken t = false ∧ hasSub (toUpperL t) msg = true) := by
  by_cases hplus : '+' ∈ name
  · have hjt : javaTokens name = javaSplit name := by simp [javaTokens, hplus]
    rw [hjt] at h ⊢
    rcases Nat.lt_or_ge 8 (javaSplit name).length with hgt | hle
    · refine ⟨("Only 8 transforms allowed: ").data ++ name, ?_, ?_, ?_⟩
      · rw [getType, if_neg (not_not_intro hplus)]
        dsimp only
        rw [if_neg (by omega), if_pos (by omega)]
      · intro _
        exact hasSub_append_self name (("Only 8 transforms allowed: ").data)
      · intro hle2
        omega
    · have hex : ∃ t ∈ javaSplit name, validToken t = false := by
        rcases h with hgt | hex
        · omega
        · exact hex
      have hlen0 : (javaSplit name).length ≠ 0 := by
        intro h0
        obtain ⟨t, htm, _⟩ := hex
        rw [List.length_eq_zero] at h0
        rw [h0] at htm
        exact absurd htm (by simp)
      obtain ⟨msg, hmsg, hrest⟩ := getTypeGo_invalid (javaSplit name) 0 28 hex
      refine ⟨msg, ?_, ?_, fun _ => hrest⟩
      · rw [getType, if_neg (not_not_intro hplus)]
        dsimp only
        rw [if_neg hlen0, if_neg (by omega), hmsg]
      · intro hgt
        omega
  · have hjt : javaTokens name = [name] := by simp [javaTokens, hplus]
    rw [hjt] at h ⊢
    have hinv : validToken name = false := by
      rcases h with hgt | hex
      · simp at hgt
      · obtain ⟨t, htm, htf⟩ := hex
        rw [List.mem_singleton] at htm
        exact htm ▸ htf
    refine ⟨("Unknown transform type: ").data ++ toUpperL name, ?_, ?_, ?_⟩
    · rw [getType, if_pos hplus, getTypeToken_invalid name hinv]
    · intro hgt
      simp at hgt
    · intro _
      exact ⟨name, by simp, hinv,
        hasSub_append_self (toUpperL name) (("Unknown transform type: ").data)⟩

/-- Witness for C8 at the nine-token name A+B+C+D+E+F+G+H+I. -/
theorem getType_rejects_witness :
    ∃ msg, getType (("A+B+C+D+E+F+G+H+I").data) = .error msg
      ∧ (8 < (javaTokens (("A+B+C+D+E+F+G+H+I").data)).length →
          hasSub (("A+B+C+D+E+F+G+H+I").data) msg = true)
      ∧ ((javaTokens (("A+B+C+D+E+F+G+H+I").data)).length ≤ 8 →
          ∃ t ∈ javaTokens (("A+B+C+D+E+F+G+H+I").data),
            validToken t = false ∧ hasSub (toUpperL t) msg = true) :=
  getType_rejects (("A+B+C+D+E+F+G+H+I").data) (Or.inl (by decide))

/-- Counterexample to C8 as stated: the name qq is a single unrecognized
token, yet the raised message carries only the uppercased token QQ and does
not contain the offending name qq itself. -/
theorem getType_message_counterexample :
    validToken (("qq").data) = false
    ∧ getType (("qq").data) = .error (("Unknown transform type: QQ").data)
    ∧ hasSub (("qq").data) (("Unknown transform type: QQ").data) = false :=
  ⟨by decide, rfl, by decide⟩

end Kanzi

